import Mathlib

/-
Verification of the zama-llm-docs build tool (src/main.py).

The development shallowly embeds the program: the filesystem is a tree of
named nodes, bytes are lists of naturals below 256, Python strings are Lean
strings (with `List Char` used for character-level work), Python `set`s are
lists used only through membership, and the effectful pipeline (download,
extraction, CLI driver) is modelled as pure state passing over an explicit
filesystem state plus an ordered trace of effects.  ASCII-range models are
used for `str.lower`, `str.strip` and the regex class `\w`, matching the
inputs the tool manipulates.
-/

/-! ## Character and string utilities -/

/-- Code-point comparison of character lists: the model of Python string
`<=` (lexicographic on code points, a proper prefix sorts first). -/
def charListLe : List Char → List Char → Bool
  | [], _ => true
  | _ :: _, [] => false
  | x :: xs, y :: ys => if x = y then charListLe xs ys else decide (x < y)

/-- ASCII model of Python `str.lower` on character data. -/
def pyLowerData (l : List Char) : List Char := l.map Char.toLower

/-- ASCII model of Python `str.lower`. -/
def pyLower (s : String) : String := ⟨pyLowerData s.data⟩

/-- Join path components with forward slashes: `PurePath.as_posix` for a
relative path given by its components. -/
def joinSlash : List String → List Char
  | [] => []
  | [x] => x.data
  | x :: rest => x.data ++ '/' :: joinSlash rest

/-- `PurePath.as_posix` as a string. -/
def relPosix (p : List String) : String := ⟨joinSlash p⟩

/-- Drop leading and trailing copies of one character: Python `str.strip(c)`. -/
def stripCh (c : Char) (l : List Char) : List Char :=
  (((l.dropWhile (· == c)).reverse).dropWhile (· == c)).reverse

/-- Drop trailing copies of one character: Python `str.rstrip(c)`. -/
def rstripCh (c : Char) (l : List Char) : List Char :=
  ((l.reverse).dropWhile (· == c)).reverse

/-- Python `str.strip()` (whitespace, ASCII model). -/
def pyStripWs (l : List Char) : List Char :=
  (((l.dropWhile Char.isWhitespace).reverse).dropWhile Char.isWhitespace).reverse

/-- Python `str.rstrip()` (whitespace, ASCII model), used on file bodies. -/
def pyRstripWs (s : String) : String :=
  ⟨((s.data.reverse).dropWhile Char.isWhitespace).reverse⟩

/-- ASCII uppercase letter test (the 26 letters A-Z). -/
def isUpperAscii (c : Char) : Bool := 65 ≤ c.toNat && c.toNat ≤ 90

/-! ## Anchor generation (`md_anchor_from_path`, src/main.py lines 119-125) -/

/-- ASCII model of the regex class `\w`: letters, digits and underscore. -/
def isWordChar (c : Char) : Bool :=
  (48 ≤ c.toNat && c.toNat ≤ 57) || (65 ≤ c.toNat && c.toNat ≤ 90) ||
  (97 ≤ c.toNat && c.toNat ≤ 122) || c == '_'

/-- Characters kept by the substitution `re.sub(r"[^\w\/\-\. ]", "", s)`:
word characters, forward slash, hyphen, dot and space. -/
def keepChar (c : Char) : Bool :=
  isWordChar c || c == '/' || c == '-' || c == '.' || c == ' '

/-- `s.replace(" ", "-")` applied characterwise. -/
def spaceToHyphen (c : Char) : Char := if c = ' ' then '-' else c

/-- The anchor pipeline of `md_anchor_from_path` on character data:
lowercase, strip everything outside `[\w\/\-\. ]`, then spaces to hyphens. -/
def pyAnchorData (l : List Char) : List Char :=
  ((pyLowerData l).filter keepChar).map spaceToHyphen

/-- The anchor pipeline on strings. -/
def pyAnchor (s : String) : String := ⟨pyAnchorData s.data⟩

/-- `md_anchor_from_path`: anchor of a path given by its components relative
to the scan root (src/main.py lines 119-125). -/
def md_anchor_from_path (rel : List String) : String := pyAnchor (relPosix rel)

/-! ## File collection (`find_files`, src/main.py lines 104-117) -/

/-- `PurePath.suffix`: the final dot-delimited suffix of a file name,
including the dot; empty when the name has no dot, starts with its only
dot, or ends with the dot. -/
def pySuffix (name : String) : String :=
  let n := name.data
  match (n.reverse).findIdx? (· == '.') with
  | none => ""
  | some j => if 0 < j ∧ j < n.length - 1 then ⟨n.drop (n.length - 1 - j)⟩ else ""

/-- A node of the scanned file tree; file contents are byte lists. -/
inductive FNode where
  | file (name : String) (content : List Nat)
  | dir (name : String) (children : List FNode)

/-- What is on disk at the scan root path: nothing, a plain file, or a
directory with its children. -/
inductive RootState where
  | absent
  | fileAt (content : List Nat)
  | dirAt (children : List FNode)

/-- The files of one directory level that pass the extension filter
(`if p.suffix.lower() in include_exts`), as paths relative to the root. -/
def levelFiles (include_exts : List String) (pre : List String) (cs : List FNode) :
    List (List String) :=
  cs.filterMap fun c => match c with
    | .file n _ => if pyLower (pySuffix n) ∈ include_exts then some (pre ++ [n]) else none
    | .dir _ _ => none

/-- The recursive part of `os.walk` with in-place pruning of
`exclude_dirs` (src/main.py lines 108-114): each subdirectory whose name is
excluded is dropped together with its whole subtree; otherwise its files are
collected and the walk descends, parent before children. -/
def walkDirs (exclude_dirs include_exts : List String) :
    List String → List FNode → List (List String)
  | _, [] => []
  | pre, .file _ _ :: rest => walkDirs exclude_dirs include_exts pre rest
  | pre, .dir m cs :: rest =>
    (if m ∈ exclude_dirs then []
     else levelFiles include_exts (pre ++ [m]) cs
       ++ walkDirs exclude_dirs include_exts (pre ++ [m]) cs)
    ++ walkDirs exclude_dirs include_exts pre rest

/-- Sort key of `find_files`: `p.relative_to(root).as_posix().lower()`. -/
def pathKeyData (p : List String) : List Char := pyLowerData (joinSlash p)

/-- The comparison used by the deterministic sort in `find_files`. -/
def fileKeyLE (a b : List String) : Prop := charListLe (pathKeyData a) (pathKeyData b) = true

instance : DecidableRel fileKeyLE := fun a b => by unfold fileKeyLE; infer_instance

instance : IsTotal (List String) fileKeyLE := ⟨by
  have general : ∀ a b : List Char, charListLe a b = true ∨ charListLe b a = true := by
    intro a
    induction a with
    | nil => intro b; left; rfl
    | cons x xs ih =>
      intro b
      cases b with
      | nil => right; rfl
      | cons y ys =>
        by_cases hxy : x = y
        · subst hxy
          rcases ih ys with h | h
          · left; simp [charListLe, h]
          · right; simp [charListLe, h]
        · rcases lt_trichotomy x y with h | h | h
          · left; simp [charListLe, hxy, h]
          · exact absurd h hxy
          · right
            have hyx : y ≠ x := fun hh : y = x => hxy hh.symm
            simp [charListLe, hyx, h]
  intro a b
  exact general (pathKeyData a) (pathKeyData b)⟩

instance : IsTrans (List String) fileKeyLE := ⟨by
  have general : ∀ a b c : List Char, charListLe a b = true → charListLe b c = true →
      charListLe a c = true := by
    intro a
    induction a with
    | nil => intro b c _ _; rfl
    | cons x xs ih =>
      intro b c h1 h2
      cases b with
      | nil => simp [charListLe] at h1
      | cons y ys =>
        cases c with
        | nil => simp [charListLe] at h2
        | cons z zs =>
          simp only [charListLe] at h1 h2 ⊢
          by_cases hxy : x = y <;> by_cases hyz : y = z
          · subst hxy; subst hyz
            simp_all
            exact ih ys zs h1 h2
          · subst hxy
            simp_all
          · subst hyz
            simp_all
          · simp only [if_neg hxy] at h1
            simp only [if_neg hyz] at h2
            have hxz : x < z := lt_trans (of_decide_eq_true h1) (of_decide_eq_true h2)
            have hne : x ≠ z := ne_of_lt hxz
            simp [hne, hxz]
  intro a b c h1 h2
  exact general _ _ _ h1 h2⟩

/-- `find_files` (src/main.py lines 104-117): walk the root, collect files
whose lowercased suffix is in `include_exts`, pruning `exclude_dirs`, then
sort stably by the lowercased slash-joined relative path.  `os.walk` over a
missing path or a plain file yields nothing. -/
def find_files (root : RootState) (include_exts exclude_dirs : List String) :
    List (List String) :=
  match root with
  | .dirAt cs =>
    List.insertionSort fileKeyLE
      (levelFiles include_exts [] cs ++ walkDirs exclude_dirs include_exts [] cs)
  | _ => []

/-- Default `include_exts` (src/main.py line 25); the Python set is modelled
as a list used only through membership. -/
def DEFAULT_INCLUDE_EXTS : List String := [".md", ".mdx", ".txt"]

/-- Default `exclude_dirs` (src/main.py line 26). -/
def DEFAULT_EXCLUDE_DIRS : List String :=
  [".git", ".gitbook", "node_modules", ".DS_Store", "__pycache__"]

/-- Default GitHub tree URL (src/main.py line 28). -/
def DEFAULT_GITHUB_TREE_URL : String := "https://github.com/zama-ai/fhevm/tree/main/docs"

/-! ## GitHub tree URL parsing (`parse_github_tree_url`, src/main.py lines 34-50)

The regex
`^https?://github\.com/(?P<owner>[^/]+)/(?P<repo>[^/]+)/tree/(?P<branch>[^/]+)(?:/(?P<subpath>.*))?$`
is deterministic: every variable part excludes `/`, so the decomposition at
slashes is forced and the match is implemented directly.  `.` does not match
a newline, so a subpath containing a newline makes the whole match fail
(the stripped string cannot end in a newline, so `$` only matches the end). -/

/-- Remove an exact leading character sequence, or fail. -/
def dropLit? : List Char → List Char → Option (List Char)
  | [], s => some s
  | _ :: _, [] => none
  | p :: ps, c :: cs => if p = c then dropLit? ps cs else none

/-- Split at the first occurrence of a character: returns the part before
(which does not contain the character) and the part after. -/
def splitFirst (sep : Char) : List Char → Option (List Char × List Char)
  | [] => none
  | c :: rest =>
    if c = sep then some ([], rest)
    else (splitFirst sep rest).map fun p => (c :: p.1, p.2)

/-- Match `<owner>/<repo>/tree/<branch>[/<subpath>]` after the host part. -/
def matchAfterHost (t : List Char) :
    Option (List Char × List Char × List Char × List Char) :=
  match splitFirst '/' t with
  | none => none
  | some (owner, t3) =>
    if owner = [] then none else
    match splitFirst '/' t3 with
    | none => none
    | some (repo, t4) =>
      if repo = [] then none else
      match dropLit? "tree/".data t4 with
      | none => none
      | some t5 =>
        match splitFirst '/' t5 with
        | none => if t5 = [] then none else some (owner, repo, t5, [])
        | some (branch, rest) =>
          if branch = [] then none
          else if '\n' ∈ rest then none
          else some (owner, repo, branch, rest)

/-- Match the whole (already stripped) URL against the tree-URL regex,
returning the owner, repo, branch and raw subpath groups. -/
def matchTreeUrl (t : List Char) :
    Option (List Char × List Char × List Char × List Char) :=
  match dropLit? "http".data t with
  | none => none
  | some t1 =>
    match dropLit? "s://github.com/".data t1 with
    | some t2 => matchAfterHost t2
    | none =>
      match dropLit? "://github.com/".data t1 with
      | some t2 => matchAfterHost t2
      | none => none

/-- `parse_github_tree_url` (src/main.py lines 38-50): strip the URL, match
the tree regex, and trim slashes off the subpath; on failure raise
`ValueError` with a message carrying the offending URL. -/
def parse_github_tree_url (url : String) :
    Except String (String × String × String × String) :=
  match matchTreeUrl (pyStripWs url.data) with
  | some (o, r, b, sp) => .ok (⟨o⟩, ⟨r⟩, ⟨b⟩, ⟨stripCh '/' sp⟩)
  | none => .error ("Not a valid GitHub tree URL: " ++ url)

/-- The shape accepted by the tree-URL regex, stated declaratively over the
character data of the stripped URL: some scheme `http`/`https`, the literal
host, three nonempty slash-free groups around the literal `tree` segment,
and an optional slash-introduced subpath free of newlines. -/
def TreeUrlShape (t o r b sub : List Char) : Prop :=
  ∃ sch tail,
    (sch = "http".data ∨ sch = "https".data)
    ∧ t = sch ++ "://github.com/".data ++ o ++ '/' :: r ++ "/tree/".data ++ b ++ tail
    ∧ o ≠ [] ∧ '/' ∉ o ∧ r ≠ [] ∧ '/' ∉ r ∧ b ≠ [] ∧ '/' ∉ b
    ∧ ((tail = [] ∧ sub = []) ∨ (tail = '/' :: sub ∧ '\n' ∉ sub))

/-! ## Text decoding (`read_text_file`, src/main.py lines 136-144)

Bytes are naturals below 256; decoded text is the list of code points.
`utf8Decode?` is the strict UTF-8 decoder (rejecting overlong forms,
surrogates and code points above U+10FFFF) run as a byte-level state
machine.  Reading in Python text mode also applies universal-newline
translation, which is modelled by `univNewlines`. -/

/-- One step of the strict UTF-8 state machine.  The state is `none`
between characters, or `some (needed, acc, lo, hi)` inside a multi-byte
sequence with `needed` continuation bytes left and `lo ≤ next ≤ hi` the
allowed range of the next byte.  The step yields the new state together
with the code points completed by this byte, or `none` on an invalid
byte. -/
def utf8Step (mb : Option (Nat × Nat × Nat × Nat)) (b : Nat) :
    Option (Option (Nat × Nat × Nat × Nat) × List Nat) :=
  match mb with
  | none =>
    if b ≤ 0x7F then some (none, [b])
    else if 0xC2 ≤ b ∧ b ≤ 0xDF then some (some (1, b - 0xC0, 0x80, 0xBF), [])
    else if b = 0xE0 then some (some (2, 0, 0xA0, 0xBF), [])
    else if 0xE1 ≤ b ∧ b ≤ 0xEC then some (some (2, b - 0xE0, 0x80, 0xBF), [])
    else if b = 0xED then some (some (2, 13, 0x80, 0x9F), [])
    else if 0xEE ≤ b ∧ b ≤ 0xEF then some (some (2, b - 0xE0, 0x80, 0xBF), [])
    else if b = 0xF0 then some (some (3, 0, 0x90, 0xBF), [])
    else if 0xF1 ≤ b ∧ b ≤ 0xF3 then some (some (3, b - 0xF0, 0x80, 0xBF), [])
    else if b = 0xF4 then some (some (3, 4, 0x80, 0x8F), [])
    else none
  | some (needed, acc, lo, hi) =>
    if lo ≤ b ∧ b ≤ hi then
      if needed = 1 then some (none, [acc * 64 + (b - 0x80)])
      else some (some (needed - 1, acc * 64 + (b - 0x80), 0x80, 0xBF), [])
    else none

/-- Run the UTF-8 state machine; a dangling multi-byte sequence at the end
of input is an error. -/
def utf8Run (mb : Option (Nat × Nat × Nat × Nat)) : List Nat → Option (List Nat)
  | [] => match mb with | none => some [] | some _ => none
  | b :: bs =>
    match utf8Step mb b with
    | none => none
    | some (mb', em) => (utf8Run mb' bs).map (em ++ ·)

/-- Strict UTF-8 decoding of a byte list (Python `bytes.decode("utf-8")`):
the code points, or `none` on any invalid or truncated sequence. -/
def utf8Decode? (bs : List Nat) : Option (List Nat) := utf8Run none bs

/-- Python `utf-8-sig`: drop one UTF-8 byte-order mark if present, then
strict UTF-8. -/
def utf8SigDecode? (bs : List Nat) : Option (List Nat) :=
  match bs with
  | 0xEF :: 0xBB :: 0xBF :: rest => utf8Decode? rest
  | _ => utf8Decode? bs

/-- Python `latin-1`: every byte decodes to the code point of the same
value, so this decoder is total. -/
def latin1Decode? (bs : List Nat) : Option (List Nat) := some bs

/-- Universal-newline translation applied by Python text-mode reads:
`\r\n` and lone `\r` both become `\n`. -/
def univNewlines : List Nat → List Nat
  | [] => []
  | 13 :: 10 :: rest => 10 :: univNewlines rest
  | 13 :: rest => 10 :: univNewlines rest
  | b :: rest => b :: univNewlines rest

/-- The `errors="replace"` last resort of `read_text_file` (src/main.py
line 144).  It is unreachable in the model because `latin1Decode?` is
total, and is modelled coarsely (ASCII bytes kept, others replaced). -/
def utf8ReplaceDecode (bs : List Nat) : List Nat :=
  bs.map fun b => if b ≤ 0x7F then b else 0xFFFD

/-- `read_text_file` (src/main.py lines 136-144): try `utf-8`, then
`utf-8-sig`, then `latin-1`, returning the first decoding that succeeds
(text mode, hence newline translation); if all three fail, decode the raw
bytes as UTF-8 with replacement. -/
def read_text_file (bs : List Nat) : List Nat :=
  match utf8Decode? bs with
  | some s => univNewlines s
  | none =>
    match utf8SigDecode? bs with
    | some s => univNewlines s
    | none =>
      match latin1Decode? bs with
      | some s => univNewlines s
      | none => utf8ReplaceDecode bs

/-! ## Document building (`make_toc` / `build_document`, src/main.py lines 127-171) -/

/-- One table-of-contents entry (src/main.py line 132). -/
def tocLine (rel : List String) : String :=
  "- [" ++ relPosix rel ++ "](#" ++ md_anchor_from_path rel ++ ")"

/-- `make_toc` (src/main.py lines 127-134). -/
def make_toc (paths : List (List String)) : String :=
  String.intercalate "\n" (["## Table of Contents", ""] ++ paths.map tocLine ++ [""])

/-- The in-body anchor marker of a section (src/main.py line 159). -/
def bodyAnchorTag (rel : List String) : String :=
  "<a id=\"" ++ md_anchor_from_path rel ++ "\"></a>\n"

/-- Code points to a string (decoder outputs are valid scalar values). -/
def cpString (l : List Nat) : String := ⟨l.map Char.ofNat⟩

/-- Content lookup in the scanned tree, used to model reading a collected
file from disk. -/
def contentAt : List FNode → List String → List Nat
  | _, [] => []
  | [], _ => []
  | .file n c :: rest, [x] => if n = x then c else contentAt rest [x]
  | .file _ _ :: rest, p => contentAt rest p
  | .dir n cs :: rest, x :: xs =>
    if n = x ∧ xs ≠ [] then contentAt cs xs else contentAt rest (x :: xs)

/-- Content of a collected file relative to the scan root. -/
def rootContentAt (root : RootState) (p : List String) : List Nat :=
  match root with
  | .dirAt cs => contentAt cs p
  | _ => []

/-- `build_document` (src/main.py lines 146-171): header, table of
contents, then per file a horizontal rule, a heading with the relative
path, the anchor marker, an attribution line and the right-stripped file
text, and a final rule, all joined with newlines. -/
def build_document (root : RootState) (files : List (List String)) : String :=
  String.intercalate "\n"
    (["# Zama FHEVM Combined Documentation\n", make_toc files]
     ++ (files.flatMap fun rel =>
          ["\n---\n",
           "## " ++ relPosix rel ++ "\n",
           bodyAnchorTag rel,
           "> _From `" ++ relPosix rel ++ "`_\n",
           "",
           pyRstripWs (cpString (read_text_file (rootContentAt root rel))),
           ""])
     ++ ["\n---\n"])

/-! ## Download and extraction (src/main.py lines 52-98)

The network and archive decoding are modelled by a `World` function from
URL to either an error message (any network/HTTP/zip failure raised by
`urllib` or `zipfile`) or the list of archive members.  Filesystem changes
at the scan root and the ordered effect trace are returned explicitly. -/

/-- An archive member: internal path, directory flag (`ZipInfo.is_dir()`),
and the decompressed bytes. -/
structure ZipEntry where
  filename : String
  isDir : Bool
  content : List Nat
deriving DecidableEq

/-- The outside world: what fetching and zip-decoding a URL yields. -/
def World : Type := String → Except String (List ZipEntry)

/-- Observable side effects, in program order. -/
inductive Effect where
  | mkdirp
  | netGet (url : String)
  | writeFile (rel : List String)
  | writeOut (name : String)
  | printOut (msg : String)
  | printErr (msg : String)
deriving DecidableEq

/-- Insert a file at a component path, creating intermediate directories
(conflicts between a file and a directory of the same name inside one
archive are degenerate zips and are not modelled). -/
def insertFile : List FNode → List String → List Nat → List FNode
  | cs, [], _ => cs
  | cs, [n], content =>
    match cs with
    | [] => [.file n content]
    | .file m c :: rest =>
      if m = n then .file n content :: rest else .file m c :: insertFile rest [n] content
    | .dir m k :: rest =>
      if m = n then .dir m k :: rest else .dir m k :: insertFile rest [n] content
  | cs, n :: ns, content =>
    match cs with
    | [] => [.dir n (insertFile [] ns content)]
    | .file m c :: rest =>
      if m = n then .file m c :: rest else .file m c :: insertFile rest (n :: ns) content
    | .dir m k :: rest =>
      if m = n then .dir m (insertFile k ns content) :: rest
      else .dir m k :: insertFile rest (n :: ns) content

/-- Split a slash-joined archive path into components. -/
def splitSlash (s : String) : List String := (s.data.splitOn '/').map List.asString

/-- The normalized member-selection path computed on src/main.py lines
62-63: the zip root part gets a trailing slash, the subdir is stripped of
slashes, and the concatenation is normalized to end with one slash. -/
def subdirPfx (zipRootPfx subdir : String) : String :=
  let zp : List Char := rstripCh '/' zipRootPfx.data ++ ['/']
  ⟨rstripCh '/' (zp ++ stripCh '/' subdir.data) ++ ['/']⟩

/-- The member path relative to the selection path (src/main.py line 73). -/
def relOfEntry (pfx : String) (zi : ZipEntry) : List String :=
  splitSlash ⟨zi.filename.data.drop pfx.data.length⟩

/-- The member filter of src/main.py lines 65-66. -/
def memberSelected (pfx : String) (zi : ZipEntry) : Bool :=
  !zi.isDir && pfx.data.isPrefixOf zi.filename.data

/-- `download_and_extract_subdir_from_zip` (src/main.py lines 52-77):
create the destination directory (with parents) first, then fetch the
archive, select the non-directory members under the normalized subdir
path, fail with `FileNotFoundError` when none match, and otherwise write
each member's bytes at its relative path.  Returns the new state at the
destination, the outcome, and the effect trace. -/
def download_and_extract_subdir_from_zip (world : World)
    (zip_url zipRootPfx subdir : String) (dest : RootState) :
    RootState × Except String Unit × List Effect :=
  match dest with
  | .fileAt c =>
    (.fileAt c, .error ("FileExistsError: " ++ "dest exists and is not a directory"), [])
  | .absent => extractInto world zip_url zipRootPfx subdir []
  | .dirAt cs => extractInto world zip_url zipRootPfx subdir cs
where
  /-- The part after `dest.mkdir(parents=True, exist_ok=True)` succeeded,
  with `cs0` the directory contents at the destination. -/
  extractInto (world : World) (zip_url zipRootPfx subdir : String) (cs0 : List FNode) :
      RootState × Except String Unit × List Effect :=
    match world zip_url with
    | .error e => (.dirAt cs0, .error e, [.mkdirp, .netGet zip_url])
    | .ok entries =>
      let pfx := subdirPfx zipRootPfx subdir
      let members := entries.filter (memberSelected pfx)
      if members.isEmpty then
        (.dirAt cs0,
         .error ("Subdirectory '" ++ subdir ++ "' not found in archive at " ++ zip_url),
         [.mkdirp, .netGet zip_url])
      else
        (.dirAt (members.foldl (fun st zi => insertFile st (relOfEntry pfx zi) zi.content) cs0),
         .ok (),
         [.mkdirp, .netGet zip_url] ++ members.map (fun zi => .writeFile (relOfEntry pfx zi)))

/-- The codeload archive URL built on src/main.py line 93. -/
def codeloadURL (owner repo branch : String) : String :=
  "https://codeload.github.com/" ++ owner ++ "/" ++ repo ++ "/zip/refs/heads/" ++ branch

/-- `ensure_docs_present_from_github` (src/main.py lines 79-98): a no-op
when the root exists and is not an empty directory; otherwise parse the
tree URL (an empty subpath defaults to `docs`), announce and perform the
download.  Any raised error is returned in the `Except`; the filesystem
state reflects whatever had happened before the raise. -/
def ensure_docs_present_from_github (root : RootState) (github_tree_url : String)
    (world : World) (rootName : String) :
    RootState × Except String Unit × List Effect :=
  let needs_download : Bool :=
    match root with
    | .absent => true
    | .fileAt _ => false
    | .dirAt cs => cs.isEmpty
  if ¬ needs_download then (root, .ok (), [])
  else
    match parse_github_tree_url github_tree_url with
    | .error e => (root, .error e, [])
    | .ok (owner, repo, branch, subpath0) =>
      let subpath := if subpath0 = "" then "docs" else subpath0
      let zip_url := codeloadURL owner repo branch
      let zipRootPfx := repo ++ "-" ++ branch
      let dl := download_and_extract_subdir_from_zip world zip_url zipRootPfx subpath root
      let announce : Effect :=
        .printOut ("Downloading '" ++ subpath ++ "/' from " ++ owner ++ "/" ++ repo
          ++ "@" ++ branch ++ " ...")
      let done : List Effect :=
        match dl.2.1 with
        | .ok _ => [.printOut ("Downloaded " ++ subpath ++ "/ to " ++ rootName)]
        | .error _ => []
      (dl.1, dl.2.1, announce :: dl.2.2 ++ done)

/-! ## CLI driver (`main`, src/main.py lines 177-218) -/

/-- The outcome of one run of the tool. -/
structure RunResult where
  exitCode : Nat
  root : RootState
  output : Option String
  events : List Effect

/-- Normalization of one `--ext` value (src/main.py line 207): prepend a
dot when missing; no other change. -/
def normalizeExt (e : String) : String :=
  match e.data with
  | '.' :: _ => e
  | _ => "." ++ e

/-- The effective include-extension list built by the driver
(src/main.py lines 205-207); the Python set union is modelled by list
concatenation, used only through membership. -/
def mkIncludeExts (extraExts : List String) : List String :=
  DEFAULT_INCLUDE_EXTS ++ extraExts.map normalizeExt

/-- The effective exclude-directory list (src/main.py line 209). -/
def mkExcludeDirs (noDefaultExcludes : Bool) : List String :=
  if noDefaultExcludes then [] else DEFAULT_EXCLUDE_DIRS

/-- Does the root exist as a directory (the fatal check on line 202). -/
def rootIsDir : RootState → Bool
  | .dirAt _ => true
  | _ => false

/-- The warning printed when the fetch step raised (src/main.py lines
198-200). -/
def fetchWarn : Except String Unit → List Effect
  | .ok _ => []
  | .error e => [.printErr ("Warning: could not fetch from GitHub: " ++ e)]

/-- The driver after the fetch attempt (src/main.py lines 202-218), given
the state at the root and the effects so far: fatally require the root to
be a directory, collect files, and either report an empty collection
(exit 0, nothing written) or write the built document.  `SystemExit` with
a message is exit code 1. -/
def mainAfterFetch (rootName : String) (root1 : RootState) (ev0 : List Effect)
    (extraExts : List String) (noDefaultExcludes : Bool) (outName : String) : RunResult :=
  if rootIsDir root1 = false then
    { exitCode := 1, root := root1, output := none,
      events := ev0 ++ [.printErr ("Root folder not found or not a directory: " ++ rootName)] }
  else
    if (find_files root1 (mkIncludeExts extraExts) (mkExcludeDirs noDefaultExcludes)).isEmpty then
      { exitCode := 0, root := root1, output := none,
        events := ev0 ++ [.printOut "No input files found. Nothing to do."] }
    else
      { exitCode := 0, root := root1,
        output := some (build_document root1
          (find_files root1 (mkIncludeExts extraExts) (mkExcludeDirs noDefaultExcludes))),
        events := ev0 ++ [.writeOut outName,
          .printOut ("Wrote " ++ outName ++ " with "
            ++ toString (find_files root1 (mkIncludeExts extraExts)
                (mkExcludeDirs noDefaultExcludes)).length
            ++ " files combined.")] }

/-- `main` (src/main.py lines 177-218) with the command line already
parsed: try the fetch (a failure only warns), then run the rest of the
driver.  (Named `main_model` because Lean reserves `main` for entry
points.) -/
def main_model (rootName : String) (root0 : RootState) (world : World) (github : String)
    (extraExts : List String) (noDefaultExcludes : Bool) (outName : String) : RunResult :=
  mainAfterFetch rootName (ensure_docs_present_from_github root0 github world rootName).1
    ((ensure_docs_present_from_github root0 github world rootName).2.2
      ++ fetchWarn (ensure_docs_present_from_github root0 github world rootName).2.1)
    extraExts noDefaultExcludes outName

/-! ## Theorems -/

/-- `Char.toLower` unfolded to an if-then-else on code points. -/
theorem toLower_eq (c : Char) :
    c.toLower = if c.toNat ≥ 65 ∧ c.toNat ≤ 90 then Char.ofNat (c.toNat + 32) else c := rfl

theorem toLower_toLower (c : Char) : c.toLower.toLower = c.toLower := by
  by_cases h : c.toNat ≥ 65 ∧ c.toNat ≤ 90
  · rw [toLower_eq c, if_pos h]
    obtain ⟨h1, h2⟩ := h
    generalize c.toNat = n at h1 h2
    interval_cases n <;> decide
  · have hc : c.toLower = c := by rw [toLower_eq]; exact if_neg h
    rw [hc, hc]

theorem isUpperAscii_toLower (c : Char) : isUpperAscii c.toLower = false := by
  by_cases h : c.toNat ≥ 65 ∧ c.toNat ≤ 90
  · rw [toLower_eq c, if_pos h]
    obtain ⟨h1, h2⟩ := h
    generalize c.toNat = n at h1 h2
    interval_cases n <;> decide
  · have hc : c.toLower = c := by rw [toLower_eq]; exact if_neg h
    rw [hc]
    simp only [isUpperAscii, Bool.and_eq_false_iff, decide_eq_false_iff_not]
    omega

/-- A map whose function fixes every member is the identity. -/
theorem map_id_of_mem {α : Type} {l : List α} {f : α → α} (h : ∀ x ∈ l, f x = x) :
    l.map f = l := by
  conv_rhs => rw [← List.map_id l]
  exact List.map_congr_left h

/-- Every character of an anchor is lowercase-stable, kept by the filter,
and not a space. -/
theorem mem_pyAnchorData (l : List Char) (c : Char) (hc : c ∈ pyAnchorData l) :
    c.toLower = c ∧ keepChar c = true ∧ c ≠ ' ' := by
  unfold pyAnchorData at hc
  obtain ⟨d, hd, hcd⟩ := List.mem_map.mp hc
  have hdf := List.mem_filter.mp hd
  obtain ⟨e, _, hde⟩ := List.mem_map.mp (by simpa [pyLowerData] using hdf.1)
  by_cases hsp : d = ' '
  · subst hsp
    subst hcd
    refine ⟨by decide, by decide, by decide⟩
  · have : spaceToHyphen d = d := by simp [spaceToHyphen, hsp]
    rw [this] at hcd
    subst hcd
    refine ⟨?_, hdf.2, hsp⟩
    rw [← hde]
    exact toLower_toLower e

theorem pyAnchorData_idem (l : List Char) :
    pyAnchorData (pyAnchorData l) = pyAnchorData l := by
  have h1 : pyLowerData (pyAnchorData l) = pyAnchorData l := by
    unfold pyLowerData
    exact map_id_of_mem fun c hc => (mem_pyAnchorData l c hc).1
  have h2 : (pyAnchorData l).filter keepChar = pyAnchorData l := by
    rw [List.filter_eq_self]
    intro c hc
    exact (mem_pyAnchorData l c hc).2.1
  have h3 : (pyAnchorData l).map spaceToHyphen = pyAnchorData l :=
    map_id_of_mem fun c hc => by simp [spaceToHyphen, (mem_pyAnchorData l c hc).2.2]
  conv_lhs => rw [pyAnchorData, h1, h2, h3]

/-- C5: the anchor used in the table of contents and the in-body anchor
marker are the same `md_anchor_from_path` value; the anchor pipeline
(lowercase the slash-joined path, strip characters outside word/slash/
hyphen/dot/space, replace spaces with hyphens) is idempotent; and on the
path `Getting Started/FAQ (v2).md` spaces become hyphens and the
parentheses are removed. -/
theorem anchor_consistent_idempotent :
    (∀ rel : List String,
        tocLine rel = "- [" ++ relPosix rel ++ "](#" ++ md_anchor_from_path rel ++ ")"
        ∧ bodyAnchorTag rel = "<a id=\"" ++ md_anchor_from_path rel ++ "\"></a>\n")
    ∧ (∀ s : String, pyAnchor (pyAnchor s) = pyAnchor s)
    ∧ md_anchor_from_path ["Getting Started", "FAQ (v2).md"] = "getting-started/faq-v2.md" := by
  refine ⟨fun rel => ⟨rfl, rfl⟩, fun s => ?_, by decide⟩
  show (⟨pyAnchorData (String.data ⟨pyAnchorData s.data⟩)⟩ : String) = ⟨pyAnchorData s.data⟩
  exact congrArg String.mk (pyAnchorData_idem s.data)

/-- C3: when the scan root exists as a non-empty directory, the fetch step
returns immediately: success, unchanged filesystem, and an empty effect
trace (in particular no network access), for every URL and every state of
the network. -/
theorem ensure_docs_noop (rootName url : String) (world : World) (cs : List FNode)
    (h : cs ≠ []) :
    ensure_docs_present_from_github (.dirAt cs) url world rootName
      = (.dirAt cs, .ok (), []) := by
  unfold ensure_docs_present_from_github
  simp [h]

/-- Witness for C3 at a concrete non-empty root, an unparsable URL and an
unreachable network. -/
theorem ensure_docs_noop_witness :
    ensure_docs_present_from_github (.dirAt [.file "a.md" [104, 105]]) "not a url"
      (fun _ => .error "network unreachable") "docs"
      = (.dirAt [.file "a.md" [104, 105]], .ok (), []) :=
  ensure_docs_noop "docs" "not a url" _ _ (by simp)

/-- When strict UTF-8 decoding fails, decoding with the byte-order-mark
variant fails as well (stripping a BOM cannot repair an invalid
sequence). -/
theorem utf8SigDecode?_eq_none (bs : List Nat) (h : utf8Decode? bs = none) :
    utf8SigDecode? bs = none := by
  unfold utf8SigDecode?
  split
  next rest =>
    unfold utf8Decode? at h ⊢
    simp only [utf8Run, utf8Step] at h
    norm_num at h
    simpa using h
  next => exact h

/-- C6: `read_text_file` tries `utf-8`, `utf-8-sig` and `latin-1` in that
order and returns the first success (with text-mode newline translation);
`latin-1` always succeeds, mapping each byte to the equal code point, so
decoding never fails: when strict UTF-8 rejects the bytes the sig variant
rejects them too and the result is the latin-1 reading.  A file of invalid
UTF-8 such as `0xFF 0x61` therefore still decodes. -/
theorem read_text_file_policy :
    (∀ bs s, utf8Decode? bs = some s → read_text_file bs = univNewlines s)
    ∧ (∀ bs, utf8Decode? bs = none →
        utf8SigDecode? bs = none ∧ read_text_file bs = univNewlines bs)
    ∧ (∀ bs, latin1Decode? bs = some bs)
    ∧ read_text_file [0xFF, 0x61] = [0xFF, 0x61] := by
  refine ⟨fun bs s h => ?_, fun bs h => ?_, fun bs => rfl, by decide⟩
  · unfold read_text_file
    rw [h]
  · have hsig := utf8SigDecode?_eq_none bs h
    refine ⟨hsig, ?_⟩
    unfold read_text_file
    rw [h, hsig]
    rfl

/-- Witness for C6 on the two-byte invalid-UTF-8 file `0xFF 0x61`. -/
theorem read_text_file_policy_witness :
    utf8SigDecode? [0xFF, 0x61] = none ∧ read_text_file [0xFF, 0x61] = univNewlines [0xFF, 0x61] :=
  read_text_file_policy.2.1 [0xFF, 0x61] (by decide)

/-- Paths produced by one directory level extend the level's own path by
exactly one file name. -/
theorem mem_levelFiles {include_exts pre : List String} {cs : List FNode}
    {p : List String} (h : p ∈ levelFiles include_exts pre cs) :
    ∃ n, p = pre ++ [n] := by
  unfold levelFiles at h
  obtain ⟨c, _, hc⟩ := List.mem_filterMap.mp h
  cases c with
  | file n _ =>
    by_cases hin : pyLower (pySuffix n) ∈ include_exts
    · simp only [if_pos hin] at hc
      exact ⟨n, (Option.some.injEq _ _ ▸ hc).symm⟩
    · simp [if_neg hin] at hc
  | dir _ _ => simp at hc

/-- Invariant of the pruned walk: if no component of the current path is
excluded, then no directory component of any produced path is excluded. -/
theorem mem_walkDirs_dropLast {exclude_dirs include_exts : List String}
    (pre : List String) (cs : List FNode) (p : List String)
    (hp : p ∈ walkDirs exclude_dirs include_exts pre cs)
    (hpre : ∀ d ∈ pre, d ∉ exclude_dirs) :
    ∀ d ∈ p.dropLast, d ∉ exclude_dirs := by
  induction pre, cs using walkDirs.induct exclude_dirs include_exts with
  | case1 pre => simp [walkDirs] at hp
  | case2 pre n content rest ih =>
    rw [walkDirs] at hp
    exact ih hp hpre
  | case3 pre m cs rest ih1 ih2 =>
    rw [walkDirs] at hp
    rcases List.mem_append.mp hp with h1 | h2
    · by_cases hm : m ∈ exclude_dirs
      · simp [if_pos hm] at h1
      · rw [if_neg hm] at h1
        have hpre' : ∀ d ∈ pre ++ [m], d ∉ exclude_dirs := by
          intro d hd
          rcases List.mem_append.mp hd with hd | hd
          · exact hpre d hd
          · simp at hd
            subst hd
            exact hm
        rcases List.mem_append.mp h1 with h1a | h1b
        · obtain ⟨n, hn⟩ := mem_levelFiles h1a
          subst hn
          rw [List.dropLast_concat]
          exact hpre'
        · exact ih1 h1b hpre'
    · exact ih2 h2 hpre

/-- C1 (amended): `find_files` always returns its result sorted ascending
by the lowercased forward-slash-joined path relative to the root; on the
root containing exactly `b.md`, `A.TXT` and `a/c.mdx` with the default
filters the order is `A.TXT`, `a/c.mdx`, `b.md` (the lowercased keys are
`a.txt` < `a/c.mdx` < `b.md`, since `.` precedes `/` in code points). -/
theorem find_files_sorted_and_example :
    (∀ (root : RootState) (include_exts exclude_dirs : List String),
        List.Sorted fileKeyLE (find_files root include_exts exclude_dirs))
    ∧ find_files (.dirAt [.file "b.md" [], .file "A.TXT" [], .dir "a" [.file "c.mdx" []]])
        DEFAULT_INCLUDE_EXTS DEFAULT_EXCLUDE_DIRS
      = [["A.TXT"], ["a", "c.mdx"], ["b.md"]] := by
  constructor
  · intro root include_exts exclude_dirs
    cases root with
    | dirAt cs => exact List.sorted_insertionSort fileKeyLE _
    | absent => simp [find_files]
    | fileAt c => simp [find_files]
  · simp only [find_files, walkDirs, levelFiles, DEFAULT_INCLUDE_EXTS, DEFAULT_EXCLUDE_DIRS]
    decide

/-- C1, counterexample to the claim as stated: the code does not return
the example files in the order `a/c.mdx`, `A.TXT`, `b.md`. -/
theorem find_files_example_counterexample :
    find_files (.dirAt [.file "b.md" [], .file "A.TXT" [], .dir "a" [.file "c.mdx" []]])
        DEFAULT_INCLUDE_EXTS DEFAULT_EXCLUDE_DIRS
      ≠ [["a", "c.mdx"], ["A.TXT"], ["b.md"]] := by
  simp only [find_files, walkDirs, levelFiles, DEFAULT_INCLUDE_EXTS, DEFAULT_EXCLUDE_DIRS]
  decide

/-- C8: files inside pruned directories never appear: every directory
component of a returned path avoids `exclude_dirs`; in particular, with
the default exclusions, `.git/hidden.md` is never returned even though its
extension matches. -/
theorem excluded_dirs_pruned :
    (∀ (root : RootState) (include_exts exclude_dirs : List String) (p : List String),
        p ∈ find_files root include_exts exclude_dirs →
        ∀ d ∈ p.dropLast, d ∉ exclude_dirs)
    ∧ [".git", "hidden.md"] ∉
        find_files (.dirAt [.dir ".git" [.file "hidden.md" []], .file "x.md" []])
          DEFAULT_INCLUDE_EXTS DEFAULT_EXCLUDE_DIRS := by
  constructor
  · intro root include_exts exclude_dirs p hp
    cases root with
    | absent => simp [find_files] at hp
    | fileAt c => simp [find_files] at hp
    | dirAt cs =>
      unfold find_files at hp
      have hp' := (List.perm_insertionSort fileKeyLE _).mem_iff.mp hp
      rcases List.mem_append.mp hp' with h1 | h2
      · obtain ⟨n, hn⟩ := mem_levelFiles h1
        subst hn
        simp
      · exact mem_walkDirs_dropLast [] cs p h2 (by simp)
  · simp only [find_files, walkDirs, levelFiles, DEFAULT_INCLUDE_EXTS, DEFAULT_EXCLUDE_DIRS]
    decide

/-- Witness for C8 on a concrete two-level tree. -/
theorem excluded_dirs_pruned_witness :
    ∀ d ∈ (["sub", "a.md"] : List String).dropLast, d ∉ DEFAULT_EXCLUDE_DIRS := by
  apply excluded_dirs_pruned.1 (.dirAt [.dir "sub" [.file "a.md" []]])
    DEFAULT_INCLUDE_EXTS DEFAULT_EXCLUDE_DIRS ["sub", "a.md"]
  simp only [find_files, walkDirs, levelFiles, DEFAULT_INCLUDE_EXTS, DEFAULT_EXCLUDE_DIRS]
  decide

/-- A lowercased string never equals a string containing an ASCII
uppercase letter. -/
theorem pyLower_ne_of_upper (e : String) (he : ∃ c ∈ e.data, isUpperAscii c = true)
    (s : String) : pyLower s ≠ normalizeExt e := by
  intro h
  obtain ⟨c, hce, hcu⟩ := he
  have hmem : c ∈ (normalizeExt e).data := by
    unfold normalizeExt
    split
    · exact hce
    · rw [String.data_append]
      exact List.mem_append_right _ hce
  rw [← h] at hmem
  have : c ∈ pyLowerData s.data := hmem
  obtain ⟨x, _, hx⟩ := List.mem_map.mp this
  rw [← hx] at hcu
  rw [isUpperAscii_toLower x] at hcu
  exact Bool.false_ne_true hcu

/-- The extension filter of one level only looks at membership of the
lowercased suffix. -/
theorem levelFiles_congr (e1 e2 pre : List String) (cs : List FNode)
    (h : ∀ n : String, pyLower (pySuffix n) ∈ e1 ↔ pyLower (pySuffix n) ∈ e2) :
    levelFiles e1 pre cs = levelFiles e2 pre cs := by
  unfold levelFiles
  induction cs with
  | nil => rfl
  | cons c rest ih =>
    cases c with
    | file n content =>
      simp only [List.filterMap_cons]
      by_cases hn : pyLower (pySuffix n) ∈ e1
      · rw [if_pos hn, if_pos ((h n).mp hn), ih]
      · rw [if_neg hn, if_neg (fun hh => hn ((h n).mpr hh)), ih]
    | dir m k =>
      simp only [List.filterMap_cons]
      exact ih

/-- The walk only looks at the include set through suffix membership. -/
theorem walkDirs_congr (excl e1 e2 : List String)
    (h : ∀ n : String, pyLower (pySuffix n) ∈ e1 ↔ pyLower (pySuffix n) ∈ e2) :
    ∀ (pre : List String) (cs : List FNode),
      walkDirs excl e1 pre cs = walkDirs excl e2 pre cs := by
  intro pre cs
  induction pre, cs using walkDirs.induct excl e1 with
  | case1 pre => rw [walkDirs, walkDirs]
  | case2 pre n content rest ih =>
    rw [walkDirs, walkDirs]
    exact ih
  | case3 pre m cs rest ih1 ih2 =>
    rw [walkDirs, walkDirs]
    by_cases hm : m ∈ excl
    · rw [if_pos hm, if_pos hm, ih2]
    · rw [if_neg hm, if_neg hm, ih1, ih2, levelFiles_congr e1 e2 (pre ++ [m]) cs h]

/-- C10: an extra `--ext` value is only normalized by prepending a dot,
never lowercased, while each candidate suffix is lowercased before the
membership test; hence an extension containing an uppercase letter matches
no file at all, and adding it leaves the collection unchanged. -/
theorem uppercase_ext_matches_nothing (e : String)
    (he : ∃ c ∈ e.data, isUpperAscii c = true) :
    (∀ name : String, pyLower (pySuffix name) ≠ normalizeExt e)
    ∧ ∀ (root : RootState) (exclude_dirs : List String),
        find_files root (mkIncludeExts [e]) exclude_dirs
          = find_files root DEFAULT_INCLUDE_EXTS exclude_dirs := by
  have hne : ∀ s : String, pyLower s ≠ normalizeExt e := pyLower_ne_of_upper e he
  refine ⟨fun name => hne _, fun root exclude_dirs => ?_⟩
  have hmem : ∀ n : String,
      pyLower (pySuffix n) ∈ mkIncludeExts [e] ↔ pyLower (pySuffix n) ∈ DEFAULT_INCLUDE_EXTS := by
    intro n
    unfold mkIncludeExts
    simp only [List.map_cons, List.map_nil, List.mem_append, List.mem_cons,
      List.not_mem_nil, or_false]
    constructor
    · rintro (hd | hx)
      · exact hd
      · exact absurd hx (hne _)
    · exact Or.inl
  cases root with
  | absent => rfl
  | fileAt c => rfl
  | dirAt cs =>
    simp only [find_files]
    rw [levelFiles_congr _ _ [] cs hmem, walkDirs_congr exclude_dirs _ _ hmem [] cs]

/-- Witness for C10 with `--ext RST` on a tree containing `notes.rst`. -/
theorem uppercase_ext_matches_nothing_witness :
    pyLower (pySuffix "notes.RST") ≠ normalizeExt "RST"
    ∧ find_files (.dirAt [.dir "a" [.file "notes.rst" []], .file "b.md" []])
        (mkIncludeExts ["RST"]) []
      = find_files (.dirAt [.dir "a" [.file "notes.rst" []], .file "b.md" []])
        DEFAULT_INCLUDE_EXTS [] := by
  have h := uppercase_ext_matches_nothing "RST" ⟨'R', by decide, by decide⟩
  exact ⟨h.1 "notes.RST", h.2 _ []⟩

/-- `dropWhile` does nothing when the first element does not match. -/
theorem dropWhileEq_eq_self {l : List Char} {c : Char} (h : l.head? ≠ some c) :
    l.dropWhile (· == c) = l := by
  cases l with
  | nil => rfl
  | cons a t =>
    have hac : a ≠ c := fun hh => h (by rw [hh]; rfl)
    simp [List.dropWhile_cons, hac]

/-- `rstrip` of a character does nothing when the list does not end in it. -/
theorem rstripCh_eq_self {l : List Char} {c : Char} (h : l.getLast? ≠ some c) :
    rstripCh c l = l := by
  unfold rstripCh
  rw [dropWhileEq_eq_self (by rw [List.head?_reverse]; exact h), List.reverse_reverse]

/-- `strip` of a character does nothing when the list neither starts nor
ends with it. -/
theorem stripCh_eq_self {l : List Char} {c : Char} (h1 : l.head? ≠ some c)
    (h2 : l.getLast? ≠ some c) : stripCh c l = l := by
  unfold stripCh
  rw [dropWhileEq_eq_self h1,
    dropWhileEq_eq_self (by rw [List.head?_reverse]; exact h2), List.reverse_reverse]

/-- On the actual call shape (no trailing slash on the zip root part, a
subpath with no leading or trailing slash), the normalized selection path
is exactly `"<zip root>/" ++ subpath ++ "/"`. -/
theorem subdirPfx_eq (zrp sd : String) (h1 : zrp.data.getLast? ≠ some '/')
    (h2 : sd.data.head? ≠ some '/') (h3 : sd.data.getLast? ≠ some '/')
    (h4 : sd.data ≠ []) :
    subdirPfx zrp sd = zrp ++ "/" ++ sd ++ "/" := by
  unfold subdirPfx
  simp only [rstripCh_eq_self h1, stripCh_eq_self h2 h3]
  rw [rstripCh_eq_self (by rw [List.getLast?_append_of_ne_nil _ h4]; exact h3)]
  rfl

/-- C4: with the archive fetched, the selected members are exactly the
non-directory entries whose internal path starts with the normalized
selection path (`"<repo>-<branch>/" ++ subpath ++ "/"` on the actual call
shape); an empty selection is a hard `Subdirectory not found` failure with
no writes, and a non-empty selection succeeds with one write per selected
member. -/
theorem extract_selection (world : World) (zu zrp sd : String) (cs0 : List FNode)
    (entries : List ZipEntry) (hw : world zu = .ok entries) :
    (∀ zi : ZipEntry,
        zi ∈ entries.filter (memberSelected (subdirPfx zrp sd))
          ↔ zi ∈ entries ∧ zi.isDir = false
            ∧ (subdirPfx zrp sd).data.isPrefixOf zi.filename.data = true)
    ∧ (zrp.data.getLast? ≠ some '/' → sd.data.head? ≠ some '/' →
        sd.data.getLast? ≠ some '/' → sd.data ≠ [] →
        subdirPfx zrp sd = zrp ++ "/" ++ sd ++ "/")
    ∧ (entries.filter (memberSelected (subdirPfx zrp sd)) = [] →
        download_and_extract_subdir_from_zip world zu zrp sd (.dirAt cs0)
          = (.dirAt cs0,
             .error ("Subdirectory '" ++ sd ++ "' not found in archive at " ++ zu),
             [.mkdirp, .netGet zu]))
    ∧ (entries.filter (memberSelected (subdirPfx zrp sd)) ≠ [] →
        (download_and_extract_subdir_from_zip world zu zrp sd (.dirAt cs0)).2.1 = .ok ()
        ∧ (download_and_extract_subdir_from_zip world zu zrp sd (.dirAt cs0)).2.2
          = [.mkdirp, .netGet zu]
            ++ (entries.filter (memberSelected (subdirPfx zrp sd))).map
                (fun zi => .writeFile (relOfEntry (subdirPfx zrp sd) zi))) := by
  refine ⟨?_, fun a b c d => subdirPfx_eq zrp sd a b c d, ?_, ?_⟩
  · intro zi
    rw [List.mem_filter]
    unfold memberSelected
    constructor
    · rintro ⟨hmem, hsel⟩
      rcases Bool.and_eq_true _ _ |>.mp hsel with ⟨hd, hp⟩
      exact ⟨hmem, by simpa using hd, hp⟩
    · rintro ⟨hmem, hd, hp⟩
      refine ⟨hmem, ?_⟩
      rw [Bool.and_eq_true]
      exact ⟨by simp [hd], hp⟩
  · intro hnone
    unfold download_and_extract_subdir_from_zip
    unfold download_and_extract_subdir_from_zip.extractInto
    rw [hw]
    simp [hnone]
  · intro hsome
    unfold download_and_extract_subdir_from_zip
    unfold download_and_extract_subdir_from_zip.extractInto
    rw [hw]
    simp [hsome]

/-- Witness for C4: a concrete archive with a matching file and a
directory entry extracts successfully, and a subdir absent from the
archive is a hard failure. -/
theorem extract_selection_witness :
    (download_and_extract_subdir_from_zip
        (fun _ => .ok [⟨"r-b/docs/a.md", false, [104]⟩, ⟨"r-b/docs/", true, []⟩])
        "zip-url" "r-b" "docs" (.dirAt [])).2.1 = .ok ()
    ∧ download_and_extract_subdir_from_zip (fun _ => .ok [⟨"r-b/other.md", false, []⟩])
        "zip-url" "r-b" "missing" (.dirAt [])
      = (.dirAt [],
         .error ("Subdirectory '" ++ "missing" ++ "' not found in archive at " ++ "zip-url"),
         [.mkdirp, .netGet "zip-url"]) := by
  constructor
  · exact ((extract_selection _ "zip-url" "r-b" "docs" [] _ rfl).2.2.2 (by decide)).1
  · exact (extract_selection _ "zip-url" "r-b" "missing" [] _ rfl).2.2.1 (by decide)

/-- The extraction step never writes the output document: its trace holds
only directory creation, the network access and per-member file writes. -/
theorem download_no_writeOut (world : World) (zu zrp sd : String) (dest : RootState)
    (n : String) :
    Effect.writeOut n ∉ (download_and_extract_subdir_from_zip world zu zrp sd dest).2.2 := by
  unfold download_and_extract_subdir_from_zip
  unfold download_and_extract_subdir_from_zip.extractInto
  cases dest with
  | fileAt c => simp
  | absent =>
    cases world zu with
    | error e => simp
    | ok entries =>
      simp only []
      split
      · simp
      · simp [List.mem_append, List.mem_map]
  | dirAt cs =>
    cases world zu with
    | error e => simp
    | ok entries =>
      simp only []
      split
      · simp
      · simp [List.mem_append, List.mem_map]

/-- The fetch stage never writes the output document. -/
theorem ensure_no_writeOut (root0 : RootState) (github rootName : String) (world : World)
    (n : String) :
    Effect.writeOut n ∉ (ensure_docs_present_from_github root0 github world rootName).2.2 := by
  unfold ensure_docs_present_from_github
  cases root0 with
  | fileAt c => simp
  | absent =>
    rw [if_neg (by simp)]
    cases parse_github_tree_url github with
    | error e => simp
    | ok quad =>
      obtain ⟨o, r, b, sp⟩ := quad
      simp only []
      intro hmem
      rcases List.mem_cons.mp hmem with h | h
      · exact Effect.noConfusion h
      rcases List.mem_append.mp h with h | h
      · exact absurd h (download_no_writeOut world _ _ _ _ n)
      revert h
      cases (download_and_extract_subdir_from_zip world (codeloadURL o r b) (r ++ "-" ++ b)
          (if sp = "" then "docs" else sp) RootState.absent).2.1 with
      | ok u => simp
      | error e => simp
  | dirAt cs =>
    by_cases hcs : cs.isEmpty = true
    · rw [if_neg (by simp [hcs])]
      cases parse_github_tree_url github with
      | error e => simp
      | ok quad =>
        obtain ⟨o, r, b, sp⟩ := quad
        simp only []
        intro hmem
        rcases List.mem_cons.mp hmem with h | h
        · exact Effect.noConfusion h
        rcases List.mem_append.mp h with h | h
        · exact absurd h (download_no_writeOut world _ _ _ _ n)
        revert h
        cases (download_and_extract_subdir_from_zip world (codeloadURL o r b) (r ++ "-" ++ b)
            (if sp = "" then "docs" else sp) (RootState.dirAt cs)).2.1 with
        | ok u => simp
        | error e => simp
    · rw [if_pos (by simp [hcs])]
      simp

/-- C7: whenever the collector comes back empty, the driver prints the
informational message, writes or overwrites no output file, and exits
successfully. -/
theorem main_empty_collection (rootName github outName : String) (root0 : RootState)
    (world : World) (extraExts : List String) (noDefaultExcludes : Bool)
    (hdir : rootIsDir (ensure_docs_present_from_github root0 github world rootName).1 = true)
    (hempty : find_files (ensure_docs_present_from_github root0 github world rootName).1
        (mkIncludeExts extraExts) (mkExcludeDirs noDefaultExcludes) = []) :
    (main_model rootName root0 world github extraExts noDefaultExcludes outName).exitCode = 0
    ∧ (main_model rootName root0 world github extraExts noDefaultExcludes outName).output = none
    ∧ Effect.printOut "No input files found. Nothing to do."
        ∈ (main_model rootName root0 world github extraExts noDefaultExcludes outName).events
    ∧ ∀ n, Effect.writeOut n
        ∉ (main_model rootName root0 world github extraExts noDefaultExcludes outName).events := by
  unfold main_model mainAfterFetch
  rw [hdir, hempty]
  simp only [List.isEmpty_nil, Bool.true_eq_false, if_false, if_true]
  refine ⟨trivial, trivial, by simp, fun n => ?_⟩
  intro hmem
  rcases List.mem_append.mp hmem with h | h
  · rcases List.mem_append.mp h with h | h
    · exact absurd h (ensure_no_writeOut root0 github rootName world n)
    · revert h
      unfold fetchWarn
      cases (ensure_docs_present_from_github root0 github world rootName).2.1 with
      | ok u => simp
      | error e => simp
  · simp at h

/-- Witness for C7: a root whose only entry has no matching extension
collects nothing, and the run exits 0 without writing. -/
theorem main_empty_collection_witness :
    (main_model "docs" (.dirAt [.file "README" []]) (fun _ => .error "offline")
        "https://example.invalid" [] false "zama-llm.txt").exitCode = 0
    ∧ (main_model "docs" (.dirAt [.file "README" []]) (fun _ => .error "offline")
        "https://example.invalid" [] false "zama-llm.txt").output = none
    ∧ Effect.printOut "No input files found. Nothing to do."
        ∈ (main_model "docs" (.dirAt [.file "README" []]) (fun _ => .error "offline")
            "https://example.invalid" [] false "zama-llm.txt").events := by
  have hens : ensure_docs_present_from_github (.dirAt [.file "README" []])
      "https://example.invalid" (fun _ => .error "offline") "docs"
      = (.dirAt [.file "README" []], .ok (), []) := by
    simp [ensure_docs_present_from_github]
  have h := main_empty_collection "docs" "https://example.invalid" "zama-llm.txt"
      (.dirAt [.file "README" []]) (fun _ => .error "offline") [] false
      (by rw [hens]; rfl)
      (by
        rw [hens]
        simp only [find_files, levelFiles, walkDirs, mkIncludeExts, mkExcludeDirs,
          DEFAULT_INCLUDE_EXTS, DEFAULT_EXCLUDE_DIRS, List.map_nil, List.append_nil]
        decide)
  exact ⟨h.1, h.2.1, h.2.2.1⟩

/-- C9: when a download is attempted (missing or empty root, parsable URL)
and the fetch or archive decode fails, the destination directory was
already created before the network access (the trace is the download
announcement, then `mkdir`, then the network access), so the root exists
as an empty directory, the post-fetch fatal check passes, and the run
continues to the empty-collection exit: a warning, the informational
message, exit code 0 and no output file. -/
theorem failed_download_recovers (rootName github outName : String) (world : World)
    (root0 : RootState) (extraExts : List String) (noDefaultExcludes : Bool)
    (o r b sp e : String)
    (hneeds : root0 = .absent ∨ root0 = .dirAt [])
    (hparse : parse_github_tree_url github = .ok (o, r, b, sp))
    (hw : world (codeloadURL o r b) = .error e) :
    main_model rootName root0 world github extraExts noDefaultExcludes outName
      = { exitCode := 0, root := .dirAt [], output := none,
          events :=
            [.printOut ("Downloading '" ++ (if sp = "" then "docs" else sp) ++ "/' from "
                ++ o ++ "/" ++ r ++ "@" ++ b ++ " ..."),
             .mkdirp, .netGet (codeloadURL o r b),
             .printErr ("Warning: could not fetch from GitHub: " ++ e),
             .printOut "No input files found. Nothing to do."] } := by
  have hens : ensure_docs_present_from_github root0 github world rootName
      = (.dirAt [], .error e,
         [.printOut ("Downloading '" ++ (if sp = "" then "docs" else sp) ++ "/' from "
            ++ o ++ "/" ++ r ++ "@" ++ b ++ " ..."),
          .mkdirp, .netGet (codeloadURL o r b)]) := by
    unfold ensure_docs_present_from_github
    rcases hneeds with h0 | h0 <;> subst h0
    · rw [if_neg (by simp), hparse]
      simp only []
      unfold download_and_extract_subdir_from_zip
      unfold download_and_extract_subdir_from_zip.extractInto
      rw [hw]
      rfl
    · rw [if_neg (by simp), hparse]
      simp only []
      unfold download_and_extract_subdir_from_zip
      unfold download_and_extract_subdir_from_zip.extractInto
      rw [hw]
      rfl
  unfold main_model mainAfterFetch
  rw [hens]
  simp only [fetchWarn, rootIsDir]
  rw [if_neg (by simp)]
  have hff : find_files (.dirAt []) (mkIncludeExts extraExts)
      (mkExcludeDirs noDefaultExcludes) = [] := by
    simp only [find_files, levelFiles, walkDirs, List.filterMap_nil, List.append_nil]
    rfl
  rw [hff]
  simp

/-- Witness for C9: absent root, parsable URL, dead network. -/
theorem failed_download_recovers_witness :
    (main_model "docs" .absent (fun _ => .error "boom") "https://github.com/a/b/tree/c"
        [] false "out.txt").events
      = [.printOut "Downloading 'docs/' from a/b@c ...",
         .mkdirp, .netGet "https://codeload.github.com/a/b/zip/refs/heads/c",
         .printErr "Warning: could not fetch from GitHub: boom",
         .printOut "No input files found. Nothing to do."]
    ∧ (main_model "docs" .absent (fun _ => .error "boom") "https://github.com/a/b/tree/c"
        [] false "out.txt").exitCode = 0
    ∧ (main_model "docs" .absent (fun _ => .error "boom") "https://github.com/a/b/tree/c"
        [] false "out.txt").root = .dirAt [] := by
  have h := failed_download_recovers "docs" "https://github.com/a/b/tree/c" "out.txt"
      (fun _ => .error "boom") .absent [] false "a" "b" "c" "" "boom"
      (Or.inl rfl) (by rfl) rfl
  rw [h]
  refine ⟨by decide, rfl, rfl⟩

/-- Dropping an exact literal off its own concatenation. -/
theorem dropLit?_append (p r : List Char) : dropLit? p (p ++ r) = some r := by
  induction p with
  | nil => rfl
  | cons c cs ih => simp [dropLit?, ih]

/-- A successful literal drop decomposes the input. -/
theorem dropLit?_sound {p s r : List Char} (h : dropLit? p s = some r) : s = p ++ r := by
  induction p generalizing s with
  | nil =>
    simpa using Option.some.inj h
  | cons c cs ih =>
    cases s with
    | nil => exact absurd h (by simp [dropLit?])
    | cons d ds =>
      simp only [dropLit?] at h
      by_cases hcd : c = d
      · subst hcd
        rw [if_pos rfl] at h
        simpa using ih h
      · rw [if_neg hcd] at h
        exact absurd h (by simp)

/-- A successful first-split decomposes the input around the first
occurrence of the separator. -/
theorem splitFirst_sound {sep : Char} {s a b : List Char}
    (h : splitFirst sep s = some (a, b)) : s = a ++ sep :: b ∧ sep ∉ a := by
  induction s generalizing a b with
  | nil => exact Option.noConfusion h
  | cons c cs ih =>
    simp only [splitFirst] at h
    by_cases hc : c = sep
    · subst hc
      rw [if_pos rfl] at h
      obtain ⟨ha, hb⟩ := Prod.mk.injEq .. ▸ Option.some.injEq _ _ |>.mp h
      subst ha; subst hb
      simp
    · rw [if_neg hc] at h
      cases hs : splitFirst sep cs with
      | none => rw [hs] at h; exact absurd h (by simp)
      | some p =>
        obtain ⟨a', b'⟩ := p
        rw [hs] at h
        simp at h
        obtain ⟨ha, hb⟩ := h
        subst hb
        obtain ⟨h1, h2⟩ := ih hs
        subst h1
        rw [← ha]
        refine ⟨rfl, ?_⟩
        intro hmem
        rcases List.mem_cons.mp hmem with hh | hh
        · exact hc hh.symm
        · exact h2 hh

/-- First-split of a concatenation whose head part avoids the separator. -/
theorem splitFirst_complete {sep : Char} (a b : List Char) (ha : sep ∉ a) :
    splitFirst sep (a ++ sep :: b) = some (a, b) := by
  induction a with
  | nil => simp [splitFirst]
  | cons c cs ih =>
    have hc : c ≠ sep := fun hh => ha (hh ▸ List.mem_cons_self c cs)
    simp only [List.cons_append, splitFirst, if_neg hc, List.append_eq]
    rw [ih (fun hh => ha (List.mem_cons_of_mem c hh))]
    rfl

/-- A failed first-split means the separator does not occur. -/
theorem splitFirst_none {sep : Char} {s : List Char} (h : splitFirst sep s = none) :
    sep ∉ s := by
  induction s with
  | nil => simp
  | cons c cs ih =>
    simp only [splitFirst] at h
    by_cases hc : c = sep
    · rw [if_pos hc] at h
      exact absurd h (by simp)
    · rw [if_neg hc] at h
      intro hmem
      rcases List.mem_cons.mp hmem with hh | hh
      · exact hc hh.symm
      · cases hs : splitFirst sep cs with
        | none => exact absurd hh (ih hs)
        | some p => rw [hs] at h; exact absurd h (by simp)

/-- The separator absent means the first-split fails. -/
theorem splitFirst_none_of {sep : Char} {s : List Char} (h : sep ∉ s) :
    splitFirst sep s = none := by
  induction s with
  | nil => rfl
  | cons c cs ih =>
    have hc : c ≠ sep := fun hh => h (hh ▸ List.mem_cons_self c cs)
    simp only [splitFirst, if_neg hc]
    rw [ih (fun hh => h (List.mem_cons_of_mem c hh))]
    rfl

/-- Completeness of the host-tail matcher: a well-shaped remainder is
matched, producing exactly the group substrings. -/
theorem matchAfterHost_complete (o r b tail sub : List Char)
    (ho : o ≠ []) (ho2 : '/' ∉ o) (hr : r ≠ []) (hr2 : '/' ∉ r)
    (hb : b ≠ []) (hb2 : '/' ∉ b)
    (htail : (tail = [] ∧ sub = []) ∨ (tail = '/' :: sub ∧ '\n' ∉ sub)) :
    matchAfterHost (o ++ '/' :: r ++ "/tree/".data ++ b ++ tail) = some (o, r, b, sub) := by
  have e1 : o ++ '/' :: r ++ "/tree/".data ++ b ++ tail
      = o ++ '/' :: (r ++ '/' :: ("tree/".data ++ (b ++ tail))) := by
    rw [show ("/tree/".data : List Char) = '/' :: "tree/".data from by decide]
    simp
  rw [e1]
  unfold matchAfterHost
  rw [splitFirst_complete o _ ho2]
  simp only [if_neg ho]
  rw [splitFirst_complete r _ hr2]
  simp only [if_neg hr]
  rw [dropLit?_append]
  simp only []
  rcases htail with ⟨h1, h2⟩ | ⟨h1, h2⟩
  · subst h1; subst h2
    rw [List.append_nil, splitFirst_none_of hb2]
    simp only [if_neg hb]
  · subst h1
    rw [splitFirst_complete b sub hb2]
    simp only [if_neg hb, if_neg (by simpa using h2)]

/-- Soundness of the host-tail matcher: a successful match decomposes the
input in the regex shape. -/
theorem matchAfterHost_sound {t2 o r b sub : List Char}
    (h : matchAfterHost t2 = some (o, r, b, sub)) :
    ∃ tail, t2 = o ++ '/' :: r ++ "/tree/".data ++ b ++ tail
      ∧ o ≠ [] ∧ '/' ∉ o ∧ r ≠ [] ∧ '/' ∉ r ∧ b ≠ [] ∧ '/' ∉ b
      ∧ ((tail = [] ∧ sub = []) ∨ (tail = '/' :: sub ∧ '\n' ∉ sub)) := by
  unfold matchAfterHost at h
  cases hs1 : splitFirst '/' t2 with
  | none => rw [hs1] at h; exact Option.noConfusion h
  | some p1 =>
    obtain ⟨owner, t3⟩ := p1
    rw [hs1] at h
    simp only [] at h
    by_cases ho : owner = []
    · rw [if_pos ho] at h; exact Option.noConfusion h
    rw [if_neg ho] at h
    cases hs2 : splitFirst '/' t3 with
    | none => rw [hs2] at h; exact Option.noConfusion h
    | some p2 =>
      obtain ⟨repo, t4⟩ := p2
      rw [hs2] at h
      simp only [] at h
      by_cases hr : repo = []
      · rw [if_pos hr] at h; exact Option.noConfusion h
      rw [if_neg hr] at h
      cases hd : dropLit? "tree/".data t4 with
      | none => rw [hd] at h; exact Option.noConfusion h
      | some t5 =>
        rw [hd] at h
        simp only [] at h
        obtain ⟨e2a, e2b⟩ := splitFirst_sound hs1
        obtain ⟨e3a, e3b⟩ := splitFirst_sound hs2
        have e4 := dropLit?_sound hd
        cases hs3 : splitFirst '/' t5 with
        | none =>
          rw [hs3] at h
          by_cases hb5 : t5 = []
          · rw [if_pos hb5] at h; exact Option.noConfusion h
          rw [if_neg hb5] at h
          obtain ⟨h1, h2, h3, h4⟩ :
              owner = o ∧ repo = r ∧ t5 = b ∧ ([] : List Char) = sub := by
            have := Option.some.inj h
            simp only [Prod.mk.injEq] at this
            exact ⟨this.1, this.2.1, this.2.2.1, this.2.2.2⟩
          subst h1; subst h2; subst h3
          refine ⟨[], ?_, ho, e2b, hr, e3b, hb5, splitFirst_none hs3, Or.inl ⟨rfl, h4.symm⟩⟩
          rw [e2a, e3a, e4]
          rw [show ("/tree/".data : List Char) = '/' :: "tree/".data from by decide]
          simp
        | some p3 =>
          obtain ⟨branch, rest⟩ := p3
          rw [hs3] at h
          simp only [] at h
          by_cases hbe : branch = []
          · rw [if_pos hbe] at h; exact Option.noConfusion h
          rw [if_neg hbe] at h
          by_cases hnl : '\n' ∈ rest
          · rw [if_pos hnl] at h; exact Option.noConfusion h
          rw [if_neg hnl] at h
          obtain ⟨h1, h2, h3, h4⟩ :
              owner = o ∧ repo = r ∧ branch = b ∧ rest = sub := by
            have := Option.some.inj h
            simp only [Prod.mk.injEq] at this
            exact ⟨this.1, this.2.1, this.2.2.1, this.2.2.2⟩
          subst h1; subst h2; subst h3
          obtain ⟨e5a, e5b⟩ := splitFirst_sound hs3
          subst h4
          refine ⟨'/' :: rest, ?_, ho, e2b, hr, e3b, hbe, e5b, Or.inr ⟨rfl, hnl⟩⟩
          rw [e2a, e3a, e4, e5a]
          rw [show ("/tree/".data : List Char) = '/' :: "tree/".data from by decide]
          simp

/-- Completeness of the whole tree-URL matcher. -/
theorem matchTreeUrl_complete (sch o r b tail sub : List Char)
    (hsch : sch = "http".data ∨ sch = "https".data)
    (ho : o ≠ []) (ho2 : '/' ∉ o) (hr : r ≠ []) (hr2 : '/' ∉ r)
    (hb : b ≠ []) (hb2 : '/' ∉ b)
    (htail : (tail = [] ∧ sub = []) ∨ (tail = '/' :: sub ∧ '\n' ∉ sub)) :
    matchTreeUrl (sch ++ "://github.com/".data ++ o ++ '/' :: r ++ "/tree/".data ++ b ++ tail)
      = some (o, r, b, sub) := by
  have hmah := matchAfterHost_complete o r b tail sub ho ho2 hr hr2 hb hb2 htail
  rcases hsch with h0 | h0 <;> subst h0
  · have hmiss : dropLit? "s://github.com/".data
        ("://github.com/".data ++ (o ++ '/' :: r ++ "/tree/".data ++ b ++ tail)) = none := by
      simp [dropLit?]
    have hhit : dropLit? "://github.com/".data
        ("://github.com/".data ++ (o ++ '/' :: r ++ "/tree/".data ++ b ++ tail))
        = some (o ++ '/' :: r ++ "/tree/".data ++ b ++ tail) := dropLit?_append _ _
    rw [show ("http".data ++ "://github.com/".data
          ++ o ++ '/' :: r ++ "/tree/".data ++ b ++ tail : List Char)
        = "http".data
          ++ ("://github.com/".data ++ (o ++ '/' :: r ++ "/tree/".data ++ b ++ tail)) from
      by simp]
    unfold matchTreeUrl
    rw [dropLit?_append]
    simp only [hmiss, hhit]
    exact hmah
  · have e : ("https".data ++ "://github.com/".data
        ++ o ++ '/' :: r ++ "/tree/".data ++ b ++ tail : List Char)
        = "http".data
        ++ ("s://github.com/".data ++ (o ++ '/' :: r ++ "/tree/".data ++ b ++ tail)) := by
      simp
    have hhit : dropLit? "s://github.com/".data
        ("s://github.com/".data ++ (o ++ '/' :: r ++ "/tree/".data ++ b ++ tail))
        = some (o ++ '/' :: r ++ "/tree/".data ++ b ++ tail) := dropLit?_append _ _
    rw [e]
    unfold matchTreeUrl
    rw [dropLit?_append]
    simp only [hhit]
    exact hmah

/-- Soundness of the whole tree-URL matcher. -/
theorem matchTreeUrl_sound {t o r b sub : List Char}
    (h : matchTreeUrl t = some (o, r, b, sub)) : TreeUrlShape t o r b sub := by
  unfold matchTreeUrl at h
  cases h1 : dropLit? "http".data t with
  | none => rw [h1] at h; exact Option.noConfusion h
  | some t1 =>
    rw [h1] at h
    simp only [] at h
    have ht : t = "http".data ++ t1 := dropLit?_sound h1
    cases h2 : dropLit? "s://github.com/".data t1 with
    | some t2 =>
      rw [h2] at h
      have ht1 : t1 = "s://github.com/".data ++ t2 := dropLit?_sound h2
      obtain ⟨tail, he, g1, g2, g3, g4, g5, g6, g7⟩ := matchAfterHost_sound h
      refine ⟨"https".data, tail, Or.inr rfl, ?_, g1, g2, g3, g4, g5, g6, g7⟩
      rw [ht, ht1, he]
      simp
    | none =>
      rw [h2] at h
      cases h3 : dropLit? "://github.com/".data t1 with
      | none => rw [h3] at h; exact Option.noConfusion h
      | some t2 =>
        rw [h3] at h
        have ht1 : t1 = "://github.com/".data ++ t2 := dropLit?_sound h3
        obtain ⟨tail, he, g1, g2, g3, g4, g5, g6, g7⟩ := matchAfterHost_sound h
        refine ⟨"http".data, tail, Or.inl rfl, ?_, g1, g2, g3, g4, g5, g6, g7⟩
        rw [ht, ht1, he]
        simp

/-- C2: full characterization of `parse_github_tree_url`.  A URL whose
stripped text matches the tree pattern parses to exactly the (owner,
repo, branch, subpath) substrings with leading/trailing slashes trimmed
from the subpath; every successful parse arises from such a decomposition;
and every failure carries the offending URL in the `MalformedURL`
(`ValueError`) message — so a string with no decomposition fails with that
error. -/
theorem parse_github_tree_url_correct :
    (∀ (url : String) (o r b sub : List Char),
        TreeUrlShape (pyStripWs url.data) o r b sub →
        parse_github_tree_url url = .ok (⟨o⟩, ⟨r⟩, ⟨b⟩, ⟨stripCh '/' sub⟩))
    ∧ (∀ (url : String) (res : String × String × String × String),
        parse_github_tree_url url = .ok res →
        ∃ o r b sub, TreeUrlShape (pyStripWs url.data) o r b sub
          ∧ res = (⟨o⟩, ⟨r⟩, ⟨b⟩, ⟨stripCh '/' sub⟩))
    ∧ (∀ (url e : String),
        parse_github_tree_url url = .error e → e = "Not a valid GitHub tree URL: " ++ url)
    ∧ (∀ url : String, (∀ o r b sub, ¬ TreeUrlShape (pyStripWs url.data) o r b sub) →
        parse_github_tree_url url = .error ("Not a valid GitHub tree URL: " ++ url)) := by
  have sound2 : ∀ (url : String) (res : String × String × String × String),
      parse_github_tree_url url = .ok res →
      ∃ o r b sub, TreeUrlShape (pyStripWs url.data) o r b sub
        ∧ res = (⟨o⟩, ⟨r⟩, ⟨b⟩, ⟨stripCh '/' sub⟩) := by
    intro url res h
    unfold parse_github_tree_url at h
    cases hm : matchTreeUrl (pyStripWs url.data) with
    | none => rw [hm] at h; exact Except.noConfusion h
    | some quad =>
      obtain ⟨o, r, b, sub⟩ := quad
      rw [hm] at h
      simp only [] at h
      exact ⟨o, r, b, sub, matchTreeUrl_sound hm, (Except.ok.inj h).symm⟩
  refine ⟨?_, sound2, ?_, ?_⟩
  · intro url o r b sub hsh
    obtain ⟨sch, tail, hs, ht, g1, g2, g3, g4, g5, g6, g7⟩ := hsh
    unfold parse_github_tree_url
    rw [ht, matchTreeUrl_complete sch o r b tail sub hs g1 g2 g3 g4 g5 g6 g7]
  · intro url e h
    unfold parse_github_tree_url at h
    cases hm : matchTreeUrl (pyStripWs url.data) with
    | none =>
      rw [hm] at h
      exact (Except.error.inj h).symm
    | some quad =>
      obtain ⟨o, r, b, sub⟩ := quad
      rw [hm] at h
      exact Except.noConfusion h
  · intro url hno
    cases hm : matchTreeUrl (pyStripWs url.data) with
    | none =>
      unfold parse_github_tree_url
      rw [hm]
    | some quad =>
      obtain ⟨o, r, b, sub⟩ := quad
      exact absurd (matchTreeUrl_sound hm) (hno o r b sub)

/-- Witness for C2: the default documentation URL parses to its exact
groups, and a shapeless string fails with the diagnostic error. -/
theorem parse_github_tree_url_correct_witness :
    parse_github_tree_url "https://github.com/zama-ai/fhevm/tree/main/docs"
      = .ok ("zama-ai", "fhevm", "main", "docs")
    ∧ parse_github_tree_url "nope" = .error ("Not a valid GitHub tree URL: " ++ "nope") := by
  constructor
  · have h := parse_github_tree_url_correct.1 "https://github.com/zama-ai/fhevm/tree/main/docs"
      "zama-ai".data "fhevm".data "main".data "docs".data
      ⟨"https".data, '/' :: "docs".data, Or.inr rfl, by decide, by decide, by decide,
        by decide, by decide, by decide, by decide, Or.inr ⟨rfl, by decide⟩⟩
    exact h
  · apply parse_github_tree_url_correct.2.2.2 "nope"
    rintro o r b sub ⟨sch, tail, hs, ht, -⟩
    have hlen := congrArg List.length ht
    have hns : (pyStripWs "nope".data).length = 4 := by decide
    rw [hns] at hlen
    rcases hs with h0 | h0 <;> subst h0 <;> simp [List.length_append] at hlen
